import Mathlib

/-!
Verification of the exdf decryption mirror (decrypt_exdf.py).

The development embeds the program in Lean:
* `reverse_bits`, `decrypt_exdf` model the byte cipher; bytes are `Nat`
  values (the Python `bytes` type guarantees the range 0..255, which
  appears as an explicit hypothesis where it matters).
* an `Element` tree models the ElementTree data structure, together with
  the whitespace rewrite of `ET.indent` and the serialization of
  `ET.tostring(..., encoding=unicode)`; the external expat parser
  `ET.fromstring` is a parameter of the embedding.
* a strict UTF-8 codec models `bytes.decode("utf-8")` and the encoding
  performed by `write_text`.
* an explicit output store and an ambient `World` (readability and
  writability of paths, plus the parser) model the file-system effects of
  `decrypt_exdf_file` and of `main`.
-/

set_option maxRecDepth 100000

namespace DecryptExdf

/-! ## ByteCipher -/

/-- Embedding of `reverse_bits`: reverse the bits in a byte through the
cascade of eight masked tests of the source (bit 0 to bit 7, bit 1 to
bit 6, and so on). A Python `if byte & m:` test means the masked value is
nonzero. -/
def reverse_bits (byte : Nat) : Nat :=
  let result : Nat := 0
  let result := if byte &&& 0x01 ≠ 0 then result ||| 0x80 else result
  let result := if byte &&& 0x02 ≠ 0 then result ||| 0x40 else result
  let result := if byte &&& 0x04 ≠ 0 then result ||| 0x20 else result
  let result := if byte &&& 0x08 ≠ 0 then result ||| 0x10 else result
  let result := if byte &&& 0x10 ≠ 0 then result ||| 0x08 else result
  let result := if byte &&& 0x20 ≠ 0 then result ||| 0x04 else result
  let result := if byte &&& 0x40 ≠ 0 then result ||| 0x02 else result
  let result := if byte &&& 0x80 ≠ 0 then result ||| 0x01 else result
  result

/-- Embedding of `decrypt_exdf`: step 1 reverses the bits of every byte,
step 2 XORs every byte with the constant 0xAA. -/
def decrypt_exdf (data : List Nat) : List Nat :=
  let reversed_data := data.map (fun b => reverse_bits b)
  let decrypted := reversed_data.map (fun b => b ^^^ 0xAA)
  decrypted

/-- Modelled from the spec: `decrypt_inverse`, the claimed inverse of the
cipher, XOR with 0xAA first and bit reversal second, per byte. The
program itself does not define this function; the spec does. -/
def decrypt_inverse (data : List Nat) : List Nat :=
  data.map (fun b => reverse_bits (b ^^^ 0xAA))

/-! ## StructuredTextFormatter: the ElementTree model

`pretty_print_xml` parses with `ET.fromstring`, rewrites whitespace with
`ET.indent(root, space="  ")` and serializes with
`ET.tostring(root, encoding=unicode)`. The parser is external C code
(expat) and is represented as a parameter of the embedding; `indent` and
the serializer are embedded below following the CPython sources of
`xml.etree.ElementTree`. -/

mutual

/-- An ElementTree element: tag, attributes in document order, text,
tail, children. -/
inductive Element : Type where
  | mk : String → List (String × String) → Option String → Option String →
      ElementList → Element

/-- The list of children of an element (mutual with `Element`). -/
inductive ElementList : Type where
  | nil : ElementList
  | cons : Element → ElementList → ElementList

end

def Element.tag : Element → String
  | .mk t _ _ _ _ => t

def Element.attrib : Element → List (String × String)
  | .mk _ a _ _ _ => a

def Element.text : Element → Option String
  | .mk _ _ x _ _ => x

def Element.tail : Element → Option String
  | .mk _ _ _ tl _ => tl

def Element.children : Element → ElementList
  | .mk _ _ _ _ ch => ch

def ElementList.isNil : ElementList → Bool
  | .nil => true
  | .cons _ _ => false

/-- The Python test `len(elem)` is truthy exactly when the element has
children. -/
def Element.hasChildren (e : Element) : Bool :=
  !e.children.isNil

/-- Replace the tail of an element. -/
def Element.withTail (tl : Option String) : Element → Element
  | .mk t a x _ ch => .mk t a x tl ch

/-- The characters removed by the `str.strip()` calls of `ET.indent`
(ASCII whitespace; the indentation strings the program builds are ASCII,
so the wider Unicode set of Python is not needed). -/
def isPySpace (c : Char) : Bool :=
  c == ' ' || c == '\t' || c == '\n' || c == '\r' || c == '\x0b' || c == '\x0c'

/-- The condition `not s or not s.strip()` of `ET.indent` on an optional
string: true for None, the empty string, and whitespace-only strings. -/
def isWsOpt : Option String → Bool
  | none => true
  | some s => s.data.all isPySpace

/-- The indentation string at a nesting level: a newline followed by two
spaces per level, matching the memoized `indentations` list of
`ET.indent` with `space="  "`. -/
def indentation (level : Nat) : String :=
  String.mk ('\n' :: List.replicate (2 * level) ' ')

/-- The whitespace rewrite step of `ET.indent`: replace a falsy or
whitespace-only optional string by the given indentation, keep other
strings. -/
def wsUpdate (ci : String) (o : Option String) : Option String :=
  if isWsOpt o then some ci else o

mutual

/-- `_indent_children(elem, level)` from `ET.indent`: rewrite a falsy or
whitespace-only text to the child indentation and process the children.
The tail of the element itself is left alone. -/
def indentCh : Nat → Element → Element
  | level, .mk tag attrib text tail children =>
    .mk tag attrib (wsUpdate (indentation (level + 1)) text) tail
      (indentChildren level children)

/-- The per-child loop of `_indent_children`: recurse into children that
themselves have children, rewrite a falsy or whitespace-only tail to the
child indentation and, for the last child only, dedent by overwriting a
whitespace tail with the parent indentation (the loop assignment followed
by the final overwrite of the source). -/
def indentChildren : Nat → ElementList → ElementList
  | _, .nil => .nil
  | level, .cons c rest =>
    let c1 := if c.hasChildren then indentCh (level + 1) c else c
    let newTail :=
      match rest with
      | .nil =>
        wsUpdate (indentation level)
          (wsUpdate (indentation (level + 1)) c1.tail)
      | .cons _ _ => wsUpdate (indentation (level + 1)) c1.tail
    .cons (c1.withTail newTail) (indentChildren level rest)

end

/-- `ET.indent(root, space="  ")`: a no-op on an element without
children, otherwise the recursive whitespace rewrite starting at level
0. -/
def indentTop (root : Element) : Element :=
  if root.hasChildren then indentCh 0 root else root

/-- `_escape_cdata` of ElementTree: escape ampersand, less-than and
greater-than in text and tails. -/
def escCdata (s : String) : String :=
  String.mk (s.data.flatMap (fun c =>
    if c == '&' then "&amp;".data
    else if c == '<' then "&lt;".data
    else if c == '>' then "&gt;".data
    else [c]))

/-- `_escape_attrib` of ElementTree: escape ampersand, less-than,
greater-than, double quote, carriage return, newline and tab in attribute
values. -/
def escAttrib (s : String) : String :=
  String.mk (s.data.flatMap (fun c =>
    if c == '&' then "&amp;".data
    else if c == '<' then "&lt;".data
    else if c == '>' then "&gt;".data
    else if c == '"' then "&quot;".data
    else if c == '\r' then "&#13;".data
    else if c == '\n' then "&#10;".data
    else if c == '\t' then "&#09;".data
    else [c]))

/-- The serialized attribute list: one leading space, key, equals, the
escaped value in double quotes, in document order. -/
def attrsString (attrib : List (String × String)) : String :=
  attrib.foldl (fun acc kv =>
    acc ++ " " ++ kv.1 ++ "=\"" ++ escAttrib kv.2 ++ "\"") ""

/-- Python truthiness of an optional string: None and the empty string
are falsy. -/
def textTruthy : Option String → Bool
  | none => false
  | some s => !s.isEmpty

mutual

/-- `_serialize_xml` of ElementTree restricted to plain tags (no
namespace URIs, no comments or processing instructions), with the
default `short_empty_elements=True` of `tostring`: an element with falsy
text and no children is written as an empty tag, the truthy tail is
escaped and appended after the element. -/
def serializeElem : Element → String
  | .mk tag attrib text tail children =>
    let head := "<" ++ tag ++ attrsString attrib
    let body :=
      if textTruthy text || !children.isNil then
        head ++ ">" ++ (match text with | some s => escCdata s | none => "") ++
          serializeList children ++ "</" ++ tag ++ ">"
      else
        head ++ " />"
    body ++
      (match tail with
       | some s => if s.isEmpty then "" else escCdata s
       | none => "")

/-- Serialization of a list of children in order. -/
def serializeList : ElementList → String
  | .nil => ""
  | .cons c rest => serializeElem c ++ serializeList rest

end

/-- Embedding of `pretty_print_xml`. The external parser `ET.fromstring`
is a parameter: `some root` models a successful parse, `none` models a
`ParseError`, in which case the original string is returned unchanged as
in the source. -/
def pretty_print_xml (fromstring : String → Option Element)
    (xml_string : String) : String :=
  match fromstring xml_string with
  | some root => serializeElem (indentTop root)
  | none => xml_string

/-! ### Idempotence of the indentation rewrite -/

/-- A two-element document used as the concrete idempotence witness. -/
def sampleDoc : Element :=
  .mk "a" [] none none (.cons (.mk "b" [] none none .nil) .nil)

/-- A parser fragment sufficient for the idempotence witness: it
recognizes the flat form and the indented form of `sampleDoc`. -/
def sampleParser (s : String) : Option Element :=
  if s = "<a><b/></a>" then some sampleDoc
  else if s = serializeElem (indentTop sampleDoc) then some (indentTop sampleDoc)
  else none

/-- A well-formed document on which formatting is NOT idempotent: its
text holds a raw carriage return, written as the character reference
in the source markup. -/
def crDoc : Element := .mk "a" [] (some "x\r") none .nil

/-- The same document after a conforming parser re-reads the serialized
output: the serializer leaves the carriage return unescaped in text, and
XML 1.0 section 2.11 makes a conforming parser normalize it to a
newline on input. -/
def crDocNorm : Element := .mk "a" [] (some "x\n") none .nil

/-- A parser fragment behaving as a conforming XML parser (CPython
ElementTree included, which was used to confirm this behaviour) on the
three strings of the non-idempotence counterexample: the character
reference parses to a carriage return, and a literal carriage return is
normalized to a newline. -/
def crParser (s : String) : Option Element :=
  if s = "<a>x&#13;</a>" then some crDoc
  else if s = "<a>x\r</a>" then some crDocNorm
  else if s = "<a>x\n</a>" then some crDocNorm
  else none

/-! ## UTF-8 codec

`decrypt_exdf_file` decodes the decrypted bytes with
`bytes.decode("utf-8")` (strict) and `write_text(..., encoding="utf-8")`
encodes the formatted text. The strict decoder below follows RFC 3629 as
the CPython codec does: it rejects truncated sequences, stray
continuation bytes, overlong forms, surrogates and code points above
0x10FFFF. -/

/-- A UTF-8 continuation byte: 0x80 to 0xBF. -/
def isCont (b : Nat) : Bool := 0x80 ≤ b && b ≤ 0xBF

/-- Strict UTF-8 decoding to code points; `none` models a
`UnicodeDecodeError`. -/
def utf8DecodeCps : List Nat → Option (List Nat)
  | [] => some []
  | b :: rest =>
    if b < 0x80 then
      (utf8DecodeCps rest).map (fun cps => b :: cps)
    else if 0xC2 ≤ b && b ≤ 0xDF then
      match rest with
      | c1 :: rest1 =>
        if isCont c1 then
          (utf8DecodeCps rest1).map (fun cps =>
            ((b - 0xC0) * 64 + (c1 - 0x80)) :: cps)
        else none
      | [] => none
    else if 0xE0 ≤ b && b ≤ 0xEF then
      match rest with
      | c1 :: c2 :: rest2 =>
        let okC1 :=
          if b == 0xE0 then 0xA0 ≤ c1 && c1 ≤ 0xBF
          else if b == 0xED then 0x80 ≤ c1 && c1 ≤ 0x9F
          else isCont c1
        if okC1 && isCont c2 then
          (utf8DecodeCps rest2).map (fun cps =>
            ((b - 0xE0) * 4096 + (c1 - 0x80) * 64 + (c2 - 0x80)) :: cps)
        else none
      | _ => none
    else if 0xF0 ≤ b && b ≤ 0xF4 then
      match rest with
      | c1 :: c2 :: c3 :: rest3 =>
        let okC1 :=
          if b == 0xF0 then 0x90 ≤ c1 && c1 ≤ 0xBF
          else if b == 0xF4 then 0x80 ≤ c1 && c1 ≤ 0x8F
          else isCont c1
        if okC1 && isCont c2 && isCont c3 then
          (utf8DecodeCps rest3).map (fun cps =>
            ((b - 0xF0) * 262144 + (c1 - 0x80) * 4096 + (c2 - 0x80) * 64 +
              (c3 - 0x80)) :: cps)
        else none
      | _ => none
    else none

/-- Strict UTF-8 decoding to a string; every code point produced by the
decoder is a Unicode scalar value, so `Char.ofNat` is faithful. -/
def utf8DecodeStr (bs : List Nat) : Option String :=
  (utf8DecodeCps bs).map (fun cps => String.mk (cps.map Char.ofNat))

/-- UTF-8 encoding of one scalar value. -/
def encodeChar (n : Nat) : List Nat :=
  if n < 0x80 then [n]
  else if n < 0x800 then [0xC0 + n / 64, 0x80 + n % 64]
  else if n < 0x10000 then
    [0xE0 + n / 4096, 0x80 + n / 64 % 64, 0x80 + n % 64]
  else
    [0xF0 + n / 262144, 0x80 + n / 4096 % 64, 0x80 + n / 64 % 64,
      0x80 + n % 64]

/-- The UTF-8 encoding performed by `write_text`. -/
def utf8Encode (s : String) : List Nat :=
  s.data.flatMap (fun c => encodeChar c.toNat)

/-! ## Paths and the file-system model

Paths are relative to the mirrored roots: a list of directory components
plus a file name. The input and the output directory are assumed
disjoint (the phase-2 walk then sees only the input tree). Python name
and suffix handling follows `pathlib.PurePosixPath`. -/

/-- A relative path: directory components and the final name. -/
structure RPath where
  dirs : List String
  name : String
deriving DecidableEq

/-- The index of the last dot of a name (`str.rfind(".")`), `none` when
there is no dot. -/
def lastDotIdx (cs : List Char) : Option Nat :=
  (List.range cs.length).foldl
    (fun acc i => if cs.getD i ' ' == '.' then some i else acc) none

/-- `PurePath.suffix`: the part of the name from its last dot on, unless
that dot is the first or the last character of the name. -/
def pySuffix (name : String) : String :=
  let cs := name.data
  match lastDotIdx cs with
  | some i => if 0 < i && i + 1 < cs.length then String.mk (cs.drop i) else ""
  | none => ""

/-- `rel_path.with_suffix(".xml")`: drop the current suffix when there is
one and append ".xml". -/
def pyWithSuffixXml (name : String) : String :=
  let sfx := pySuffix name
  let base :=
    if sfx.isEmpty then name
    else String.mk (name.data.take (name.data.length - sfx.data.length))
  base ++ ".xml"

/-- The output path of a transformed file: same directories, suffix
rewritten to ".xml". -/
def xmlOutPath (p : RPath) : RPath :=
  ⟨p.dirs, pyWithSuffixXml p.name⟩

/-- Whether `rglob("*.exdf")` matches a name: case-sensitive fnmatch of
the final component against the pattern, that is, the name ends with
".exdf" (the star may match the empty string). -/
def rglobExdfMatch (name : String) : Bool :=
  ".exdf".data.isSuffixOf name.data

/-- `str.lower()` character by character (ASCII case mapping; the
non-ASCII special cases of Unicode lowercasing do not affect the ASCII
extension comparison this models). -/
def pyLower (s : String) : String :=
  String.mk (s.data.map Char.toLower)

/-- The phase-2 skip test `file_path.suffix.lower() == ".exdf"`:
case-insensitive, and based on the suffix rather than on the glob
pattern. -/
def isExdfBySuffix (name : String) : Bool :=
  pyLower (pySuffix name) == ".exdf"

/-- The string a PurePosixPath sorts by: components joined with a
slash. -/
def pathKey (p : RPath) : String :=
  String.intercalate "/" (p.dirs ++ [p.name])

/-- The output store: written files with their bytes (at most one entry
per path thanks to overwrite semantics) and created directories. -/
structure OutFS where
  files : List (RPath × List Nat)
  dirs : List (List String)
deriving DecidableEq

/-- Writing a file, overwriting any previous content at the same path
(`write_text` and `shutil.copy2` semantics). -/
def writeFile (fs : OutFS) (p : RPath) (c : List Nat) : OutFS :=
  { fs with files := (p, c) :: fs.files.filter (fun e => decide (e.1 ≠ p)) }

/-- All the ancestor directory chains of a directory path. -/
def prefixesOf : List String → List (List String)
  | [] => [[]]
  | d :: rest => [] :: (prefixesOf rest).map (fun q => d :: q)

def insertDir (dirs : List (List String)) (d : List String) :
    List (List String) :=
  if d ∈ dirs then dirs else d :: dirs

/-- `output_path.parent.mkdir(parents=True, exist_ok=True)`: ensure every
ancestor of the directory part exists; idempotent. -/
def mkdirParents (fs : OutFS) (ds : List String) : OutFS :=
  { fs with dirs := (prefixesOf ds).foldl insertDir fs.dirs }

/-- The ambient world of a run: which input paths are readable, which
output paths are writable, and the external XML parser. -/
structure World where
  readable : RPath → Bool
  writable : RPath → Bool
  fromstring : String → Option Element

/-- An entry of the input tree: a regular file with its bytes, or a
directory. Paths are relative to the input root. -/
inductive FSEntry where
  | file : RPath → List Nat → FSEntry
  | dir : RPath → FSEntry
deriving DecidableEq

def FSEntry.path : FSEntry → RPath
  | .file p _ => p
  | .dir p => p

def FSEntry.name (e : FSEntry) : String := e.path.name

/-- The result of `input_path.read_bytes()`: the bytes of a readable
regular file, `none` when the read raises (missing permission, or the
path is a directory that `rglob("*.exdf")` matched). -/
def readBytesOf (w : World) : FSEntry → Option (List Nat)
  | .file p c => if w.readable p then some c else none
  | .dir _ => none

/-! ## FileTransformer -/

/-- Embedding of `decrypt_exdf_file`. The outcome of the read is passed
in as an option and the output store is explicit; the `except` clause of
the source corresponds to the `false` results. The body reads, decrypts,
decodes, formats, creates the parent directories and writes; a failed
write leaves the directories it created. -/
def decrypt_exdf_file (w : World) (encrypted_data : Option (List Nat))
    (fs : OutFS) (output_path : RPath) : Bool × OutFS :=
  match encrypted_data with
  | none => (false, fs)
  | some data =>
    match utf8DecodeStr (decrypt_exdf data) with
    | none => (false, fs)
    | some xml_string =>
      let formatted_xml := pretty_print_xml w.fromstring xml_string
      let fs1 := mkdirParents fs output_path.dirs
      if w.writable output_path then
        (true, writeFile fs1 output_path (utf8Encode formatted_xml))
      else (false, fs1)

/-- The bytes found at the output path after a successful transform. -/
def transformContent (w : World) (data : List Nat) : List Nat :=
  match utf8DecodeStr (decrypt_exdf data) with
  | some s => utf8Encode (pretty_print_xml w.fromstring s)
  | none => []

/-! ## TreeMirror: the main run -/

/-- One iteration of the phase-1 loop of `main`: transform one
`rglob("*.exdf")` match and bump the success or the failure counter. -/
def phase1Step (w : World) (st : Nat × Nat × OutFS) (e : FSEntry) :
    Nat × Nat × OutFS :=
  match decrypt_exdf_file w (readBytesOf w e) st.2.2 (xmlOutPath e.path) with
  | (true, fs2) => (st.1 + 1, st.2.1, fs2)
  | (false, fs2) => (st.1, st.2.1 + 1, fs2)

/-- The phase-1 loop over the sorted matches: success count, failure
count, output store. -/
def phase1 (w : World) (es : List FSEntry) (fs0 : OutFS) :
    Nat × Nat × OutFS :=
  es.foldl (phase1Step w) (0, 0, fs0)

/-- `sorted(exdf_files)`: paths sort by their joined string form; a
stable sort models the Python sort (the processing order is immaterial
to the properties proved below, which hold for any permutation). -/
def sortByPathKey (es : List FSEntry) : List FSEntry :=
  List.insertionSort (fun a b => pathKey a.path ≤ pathKey b.path) es

/-- One iteration of the phase-2 copy loop: directories are skipped by
`is_file()`, files whose lowercased suffix is ".exdf" are skipped, other
files are copied after creating parent directories. `shutil.copy2` has
no exception guard in the source: a failing copy raises out of `main`,
modelled by `none`. -/
def copyStep (w : World) (st : Option (Nat × OutFS)) (e : FSEntry) :
    Option (Nat × OutFS) :=
  match st, e with
  | none, _ => none
  | some st1, .dir _ => some st1
  | some (copied_count, fs), .file p c =>
    if isExdfBySuffix p.name then some (copied_count, fs)
    else
      let fs1 := mkdirParents fs p.dirs
      if w.readable p && w.writable p then
        some (copied_count + 1, writeFile fs1 p c)
      else none

/-- The counters and the output store at the end of a run. -/
structure RunResult where
  success : Nat
  failed : Nat
  copied : Nat
  fs : OutFS
deriving DecidableEq

/-- Embedding of `main` after argument validation, on an existing input
tree: phase 1 transforms the sorted `rglob("*.exdf")` matches, phase 2
copies every regular file whose lowercased suffix is not ".exdf".
`none` models an uncaught exception from the unguarded copy. -/
def mainRun (w : World) (tree : List FSEntry) : Option RunResult :=
  let exdf_files := sortByPathKey
    (tree.filter (fun e => rglobExdfMatch e.name))
  let p1 := phase1 w exdf_files ⟨[], []⟩
  match tree.foldl (copyStep w) (some (0, p1.2.2)) with
  | some (copied_count, fs2) => some ⟨p1.1, p1.2.1, copied_count, fs2⟩
  | none => none

/-- The process exit status of a run that passed argument validation: 0
on normal completion of `main` (the counters are only printed), 1 when an
uncaught exception terminates the interpreter. -/
def runExitCode (w : World) (tree : List FSEntry) : Nat :=
  match mainRun w tree with
  | some _ => 0
  | none => 1

/-- The regular files of the input tree. -/
def regularFiles (tree : List FSEntry) : List (RPath × List Nat) :=
  tree.filterMap (fun e =>
    match e with
    | .file p c => some (p, c)
    | .dir _ => none)

/-- The regular files phase 1 transforms: name matches the glob. -/
def exdfFilesOf (tree : List FSEntry) : List (RPath × List Nat) :=
  (regularFiles tree).filter (fun pc => rglobExdfMatch pc.1.name)

/-- The regular files phase 2 copies: lowercased suffix differs from
".exdf". -/
def passThroughFilesOf (tree : List FSEntry) : List (RPath × List Nat) :=
  (regularFiles tree).filter (fun pc => !isExdfBySuffix pc.1.name)

/-! ## Concrete runs -/

/-- A world where every path is readable and writable and the parser
rejects every string (the formatter then passes text through). -/
def wAll : World := ⟨fun _ => true, fun _ => true, fun _ => none⟩

/-- An input tree holding one regular file whose extension is an
uppercase variant of the encrypted extension. -/
def caseVariantTree : List FSEntry := [.file ⟨[], "A.EXDF"⟩ [65]]

/-- An input tree holding one regular file whose decrypted content (the
byte 0xAA) is not valid UTF-8. -/
def badDecodeTree : List FSEntry := [.file ⟨[], "a.exdf"⟩ [0]]

/-- A mixed tree used as the completeness witness: one encrypted file
whose content decrypts to the letter A, one pass-through file. -/
def treeMixedOk : List FSEntry :=
  [.file ⟨[], "a.exdf"⟩ [215], .file ⟨[], "b.txt"⟩ [1, 2, 3]]

/-- A mixed tree used as the counter witness: one encrypted file whose
transform fails to decode, one pass-through file. -/
def treeMixedFail : List FSEntry :=
  [.file ⟨[], "a.exdf"⟩ [0], .file ⟨[], "b.txt"⟩ [1, 2]]

/-- C2: `decrypt_exdf` is total and deterministic on byte lists of any
length including the empty list, acts independently on each byte as the
map of bit-reversal followed by XOR 0xAA, the bit reversal sends bit i to
bit 7 - i for every byte value, and the known vectors hold: 0x00 goes to
0xAA, 0xFF to 0x55, 0x01 to 0x2A. -/
theorem decrypt_exdf_pointwise_spec :
    decrypt_exdf [] = [] ∧
    (∀ data : List Nat,
      decrypt_exdf data = data.map (fun b => reverse_bits b ^^^ 0xAA)) ∧
    (∀ b : Nat, b < 256 → ∀ i : Nat, i < 8 →
      (reverse_bits b).testBit i = b.testBit (7 - i)) ∧
    decrypt_exdf [0x00, 0xFF, 0x01] = [0xAA, 0x55, 0x2A] := by
  refine ⟨rfl, ?_, ?_, by decide⟩
  · intro data
    simp [decrypt_exdf, List.map_map, Function.comp]
  · decide

/-- Witness for C2 at a concrete byte and bit position. -/
theorem decrypt_exdf_pointwise_spec_witness :
    (reverse_bits 0xB7).testBit 2 = Nat.testBit 0xB7 5 :=
  decrypt_exdf_pointwise_spec.2.2.1 0xB7 (by decide) 2 (by decide)

/-- C3: the cipher is invertible: for byte sequences (all values below
256), decrypting the output of `decrypt_inverse` restores the input, and
applying XOR 0xAA followed by bit reversal to the output of
`decrypt_exdf` also restores the input. -/
theorem decrypt_inverse_round_trip (b : List Nat) (h : ∀ x ∈ b, x < 256) :
    decrypt_exdf (decrypt_inverse b) = b ∧
    decrypt_inverse (decrypt_exdf b) = b := by
  have hbyte : ∀ x : Nat, x < 256 →
      reverse_bits (reverse_bits (x ^^^ 0xAA)) ^^^ 0xAA = x ∧
      reverse_bits (reverse_bits x ^^^ 0xAA ^^^ 0xAA) = x := by decide
  induction b with
  | nil => exact ⟨rfl, rfl⟩
  | cons x xs ih =>
    have hx := hbyte x (h x (List.mem_cons_self x xs))
    have hxs := ih (fun y hy => h y (List.mem_cons_of_mem x hy))
    constructor
    · have h1 : decrypt_exdf (decrypt_inverse xs) = xs := hxs.1
      simpa [decrypt_exdf, decrypt_inverse, List.map_map, Function.comp,
        hx.1] using h1
    · have h2 : decrypt_inverse (decrypt_exdf xs) = xs := hxs.2
      simpa [decrypt_exdf, decrypt_inverse, List.map_map, Function.comp,
        hx.2] using h2

/-- Witness for C3 on a concrete byte sequence. -/
theorem decrypt_inverse_round_trip_witness :
    decrypt_exdf (decrypt_inverse [0, 255, 1]) = [0, 255, 1] ∧
    decrypt_inverse (decrypt_exdf [0, 255, 1]) = [0, 255, 1] :=
  decrypt_inverse_round_trip [0, 255, 1] (by decide)

/-- C9: the two cipher steps do not commute: there is a byte value
(indeed every byte value) on which XOR-ing the bit-reversed byte with
0xAA differs from bit-reversing the XOR-ed byte, and consequently the
swapped order defines a transform different from `decrypt_exdf` on
every single-byte input. -/
theorem cipher_steps_not_commuting :
    (∃ x : Nat, x < 256 ∧
      reverse_bits x ^^^ 0xAA ≠ reverse_bits (x ^^^ 0xAA)) ∧
    (∀ x : Nat, x < 256 →
      reverse_bits x ^^^ 0xAA ≠ reverse_bits (x ^^^ 0xAA)) ∧
    (∀ x : Nat, x < 256 →
      decrypt_exdf [x] ≠ [reverse_bits (x ^^^ 0xAA)]) := by
  refine ⟨⟨0, by decide, by decide⟩, by decide, by decide⟩

/-- Witness for C9 at byte 0x00: the cipher differs from the swapped
two-step order there. -/
theorem cipher_steps_not_commuting_witness :
    decrypt_exdf [0] ≠ [reverse_bits (0 ^^^ 0xAA)] :=
  cipher_steps_not_commuting.2.2 0 (by decide)

/-- C6: whenever the parse fails, `pretty_print_xml` returns exactly the
original input string, and the failure is not propagated (the function
is total). -/
theorem pretty_print_xml_on_parse_failure
    (fromstring : String → Option Element) (s : String)
    (h : fromstring s = none) :
    pretty_print_xml fromstring s = s := by
  simp [pretty_print_xml, h]

/-- Witness for C6: a parser that rejects the non-markup input string
leaves it unchanged. -/
theorem pretty_print_xml_on_parse_failure_witness :
    pretty_print_xml (fun _ => none) "not xml at all" = "not xml at all" :=
  pretty_print_xml_on_parse_failure (fun _ => none) "not xml at all" rfl

theorem indentChildren_isNil (level : Nat) (l : ElementList) :
    (indentChildren level l).isNil = l.isNil := by
  cases l with
  | nil => rfl
  | cons c rest => rfl

theorem tail_withTail (tl : Option String) (e : Element) :
    (e.withTail tl).tail = tl := by
  cases e; rfl

theorem hasChildren_withTail (tl : Option String) (e : Element) :
    (e.withTail tl).hasChildren = e.hasChildren := by
  cases e; rfl

theorem withTail_withTail (a b : Option String) (e : Element) :
    (e.withTail a).withTail b = e.withTail b := by
  cases e; rfl

theorem tail_indentCh (level : Nat) (e : Element) :
    (indentCh level e).tail = e.tail := by
  cases e; rfl

theorem indentCh_withTail (level : Nat) (tl : Option String) (e : Element) :
    indentCh level (e.withTail tl) = (indentCh level e).withTail tl := by
  cases e; rfl

theorem hasChildren_indentCh (level : Nat) (e : Element) :
    (indentCh level e).hasChildren = e.hasChildren := by
  cases e with
  | mk t a x tl ch =>
    simp [indentCh, Element.hasChildren, Element.children, indentChildren_isNil]

theorem all_isPySpace_replicate (n : Nat) :
    (List.replicate n ' ').all isPySpace = true := by
  induction n with
  | zero => rfl
  | succ k ih => simp_all [List.replicate_succ, isPySpace]

theorem isWsOpt_indentation (level : Nat) :
    isWsOpt (some (indentation level)) = true := by
  simp [isWsOpt, indentation, all_isPySpace_replicate, isPySpace]

/-- Rewriting a tail or text twice with the same indentation is the same
as rewriting it once. -/
theorem wsUpdate_idem (k : Nat) (o : Option String) :
    wsUpdate (indentation k) (wsUpdate (indentation k) o) =
      wsUpdate (indentation k) o := by
  by_cases h : isWsOpt o = true
  · simp [wsUpdate, h, isWsOpt_indentation]
  · simp [wsUpdate, h]

/-- The last-child update (loop assignment followed by the dedent
overwrite) is idempotent. -/
theorem wsUpdate_last_idem (l : Nat) (o : Option String) :
    wsUpdate (indentation l) (wsUpdate (indentation (l + 1))
      (wsUpdate (indentation l) (wsUpdate (indentation (l + 1)) o))) =
    wsUpdate (indentation l) (wsUpdate (indentation (l + 1)) o) := by
  by_cases h : isWsOpt o = true
  · simp [wsUpdate, h, isWsOpt_indentation]
  · simp [wsUpdate, h]

theorem tail_if_indentCh (b : Bool) (level : Nat) (c : Element) :
    (if b then indentCh level c else c).tail = c.tail := by
  cases b with
  | true => simp [tail_indentCh]
  | false => simp

mutual

/-- The whitespace rewrite of one element is idempotent at every level. -/
theorem indentCh_idem : ∀ (level : Nat) (e : Element),
    indentCh level (indentCh level e) = indentCh level e
  | level, .mk t a x tl ch => by
    simp only [indentCh]
    rw [wsUpdate_idem, indentChildren_idem level ch]

/-- The per-child loop of the whitespace rewrite is idempotent at every
level. -/
theorem indentChildren_idem : ∀ (level : Nat) (l : ElementList),
    indentChildren level (indentChildren level l) = indentChildren level l
  | _, .nil => rfl
  | level, .cons c rest => by
    have hrest := indentChildren_idem level rest
    have hC1 :
        (if (if c.hasChildren then indentCh (level + 1) c else c).withTail
              (wsUpdate (indentation level)
                (wsUpdate (indentation (level + 1)) c.tail)) |>.hasChildren then
           indentCh (level + 1)
             ((if c.hasChildren then indentCh (level + 1) c else c).withTail
               (wsUpdate (indentation level)
                 (wsUpdate (indentation (level + 1)) c.tail)))
         else
           (if c.hasChildren then indentCh (level + 1) c else c).withTail
             (wsUpdate (indentation level)
               (wsUpdate (indentation (level + 1)) c.tail))) =
        (if c.hasChildren then indentCh (level + 1) c else c).withTail
          (wsUpdate (indentation level)
            (wsUpdate (indentation (level + 1)) c.tail)) := by
      cases hch : c.hasChildren with
      | true =>
        simp only [hch, if_pos, hasChildren_withTail, hasChildren_indentCh,
          if_true]
        rw [indentCh_withTail, indentCh_idem (level + 1) c]
      | false =>
        simp [hch, hasChildren_withTail]
    have hC1ns :
        (if (if c.hasChildren then indentCh (level + 1) c else c).withTail
              (wsUpdate (indentation (level + 1)) c.tail) |>.hasChildren then
           indentCh (level + 1)
             ((if c.hasChildren then indentCh (level + 1) c else c).withTail
               (wsUpdate (indentation (level + 1)) c.tail))
         else
           (if c.hasChildren then indentCh (level + 1) c else c).withTail
             (wsUpdate (indentation (level + 1)) c.tail)) =
        (if c.hasChildren then indentCh (level + 1) c else c).withTail
          (wsUpdate (indentation (level + 1)) c.tail) := by
      cases hch : c.hasChildren with
      | true =>
        simp only [hch, if_pos, hasChildren_withTail, hasChildren_indentCh,
          if_true]
        rw [indentCh_withTail, indentCh_idem (level + 1) c]
      | false =>
        simp [hch, hasChildren_withTail]
    cases rest with
    | nil =>
      simp only [indentChildren, tail_if_indentCh]
      rw [hC1, tail_withTail, wsUpdate_last_idem, withTail_withTail]
    | cons d rest2 =>
      simp only [indentChildren, tail_if_indentCh] at hrest ⊢
      rw [hC1ns, tail_withTail, wsUpdate_idem, withTail_withTail]
      exact congrArg _ hrest

end

/-- `ET.indent` is idempotent on element trees. -/
theorem indentTop_idem (e : Element) : indentTop (indentTop e) = indentTop e := by
  by_cases h : e.hasChildren = true
  · simp [indentTop, h, hasChildren_indentCh, indentCh_idem]
  · simp [indentTop, h]

/-- Counterexample to C8: formatting is not idempotent on every
well-formed document. The serializer does not escape a carriage return
in text, while a conforming parser normalizes a literal carriage return
to a newline on input; hence for the well-formed document with text
x followed by the carriage-return character reference, the first format
emits the raw carriage return and the second format turns it into a
newline (confirmed against CPython ElementTree). -/
theorem pretty_print_xml_not_idempotent :
    pretty_print_xml crParser (pretty_print_xml crParser "<a>x&#13;</a>") ≠
      pretty_print_xml crParser "<a>x&#13;</a>" := by
  decide

/-- C8 amended: `pretty_print_xml` is idempotent on the well-formed
documents whose serialized indented tree re-parses to that same tree: if
the input parses to a tree `t` and the parser round-trips the serialized
indented form, the second format reproduces the first byte for byte.
The round-trip hypothesis is genuinely needed and excludes exactly the
documents with a raw carriage return in text or tail content, which the
serializer emits unescaped and a conforming parser normalizes to a
newline on re-parse (attribute values are safe: the attribute escaping
does encode carriage returns). -/
theorem pretty_print_xml_idempotent
    (fromstring : String → Option Element) (s : String) (t : Element)
    (hparse : fromstring s = some t)
    (hround : fromstring (serializeElem (indentTop t)) = some (indentTop t)) :
    pretty_print_xml fromstring (pretty_print_xml fromstring s) =
      pretty_print_xml fromstring s := by
  simp only [pretty_print_xml, hparse, hround, indentTop_idem]

/-- Witness for C8 on the concrete document. -/
theorem pretty_print_xml_idempotent_witness :
    pretty_print_xml sampleParser (pretty_print_xml sampleParser "<a><b/></a>") =
      pretty_print_xml sampleParser "<a><b/></a>" :=
  pretty_print_xml_idempotent sampleParser "<a><b/></a>" sampleDoc
    (by rfl) (by rfl)

/-- Counterexample to C1: the file name "A.EXDF" matches the encrypted
extension case-insensitively, the tree holds one regular file, yet the
completed run transforms nothing, copies nothing and leaves the output
tree empty: the case-sensitive glob of phase 1 misses the file while the
case-insensitive suffix test of phase 2 skips it. -/
theorem mirror_drops_case_variant_file :
    isExdfBySuffix "A.EXDF" = true ∧
    (regularFiles caseVariantTree).length = 1 ∧
    (mainRun wAll caseVariantTree).map
      (fun r => (r.success, r.failed, r.copied, r.fs.files.length)) =
      some (0, 0, 0, 0) := by
  decide

/-- Counterexample to C7: on the same tree the counters sum to 0 while
one regular file was visited. -/
theorem report_counters_counterexample :
    (mainRun wAll caseVariantTree).map
      (fun r => r.success + r.failed + r.copied) = some 0 ∧
    (regularFiles caseVariantTree).length = 1 := by
  decide

/-- Counterexample to C4: a run whose transformed-failure count is 1
still exits with the success status 0: `main` never consults the failure
counter for the exit status. -/
theorem exit_status_ignores_failures :
    (mainRun wAll badDecodeTree).map (fun r => r.failed) = some 1 ∧
    runExitCode wAll badDecodeTree = 0 := by
  decide

/-- C4 amended: every completed run exits with the success status 0
regardless of the transformed-failure count; a non-success status arises
only from argument validation, a missing input folder, or an uncaught
exception (an unguarded copy failure), not from failed transforms. -/
theorem run_exit_code_amended (w : World) (tree : List FSEntry)
    (r : RunResult) (h : mainRun w tree = some r) :
    runExitCode w tree = 0 := by
  simp [runExitCode, h]

/-- Witness for the amended C4 on a completed run with one failure. -/
theorem run_exit_code_amended_witness :
    runExitCode wAll badDecodeTree = 0 :=
  run_exit_code_amended wAll badDecodeTree
    ⟨0, 1, 0, ⟨[], []⟩⟩ (by decide)

/-- The phase-1 loop updates exactly one counter per processed entry, so
the counters always account for every entry regardless of failures. -/
theorem phase1_counts (w : World) (es : List FSEntry) :
    ∀ (s f : Nat) (fs : OutFS),
      (es.foldl (phase1Step w) (s, f, fs)).1 +
        (es.foldl (phase1Step w) (s, f, fs)).2.1 = s + f + es.length := by
  induction es with
  | nil => intro s f fs; simp
  | cons e es ih =>
    intro s f fs
    rw [List.foldl_cons]
    rcases hd : decrypt_exdf_file w (readBytesOf w e) fs (xmlOutPath e.path)
      with ⟨ok, fs2⟩
    cases ok
    · have h2 := ih s (f + 1) fs2
      simp only [phase1Step, hd, List.length_cons]
      omega
    · have h2 := ih (s + 1) f fs2
      simp only [phase1Step, hd, List.length_cons]
      omega

/-- C5: the transform never propagates a failure: an unreadable input, an
undecodable decryption and an unwritable output location each produce the
failure outcome (leaving at most the created directories behind), and the
phase-1 loop keeps processing every remaining entry, accounting for each
one in the counters. -/
theorem transform_failures_isolated :
    (∀ (w : World) (fs : OutFS) (out : RPath),
      decrypt_exdf_file w none fs out = (false, fs)) ∧
    (∀ (w : World) (data : List Nat) (fs : OutFS) (out : RPath),
      utf8DecodeStr (decrypt_exdf data) = none →
      decrypt_exdf_file w (some data) fs out = (false, fs)) ∧
    (∀ (w : World) (data : List Nat) (fs : OutFS) (out : RPath) (s : String),
      utf8DecodeStr (decrypt_exdf data) = some s → w.writable out = false →
      decrypt_exdf_file w (some data) fs out = (false, mkdirParents fs out.dirs)) ∧
    (∀ (w : World) (es : List FSEntry) (s f : Nat) (fs : OutFS),
      (es.foldl (phase1Step w) (s, f, fs)).1 +
        (es.foldl (phase1Step w) (s, f, fs)).2.1 = s + f + es.length) := by
  refine ⟨fun w fs out => rfl, ?_, ?_, fun w es s f fs => phase1_counts w es s f fs⟩
  · intro w data fs out h
    simp [decrypt_exdf_file, h]
  · intro w data fs out s h1 h2
    simp [decrypt_exdf_file, h1, h2]

/-- Witness for C5: a concrete undecodable input yields the failure
outcome and leaves the store unchanged. -/
theorem transform_failures_isolated_witness :
    decrypt_exdf_file wAll (some [0]) ⟨[], []⟩ ⟨[], "a.xml"⟩ =
      (false, ⟨[], []⟩) :=
  transform_failures_isolated.2.1 wAll [0] ⟨[], []⟩ ⟨[], "a.xml"⟩ rfl

/-- C10: when the read or the UTF-8 decoding fails, `decrypt_exdf_file`
returns the failure outcome before any file-system effect: no parent
directory is created and no output file is written or overwritten. -/
theorem transform_early_failure_no_write (w : World) (fs : OutFS)
    (out : RPath) (input : Option (List Nat))
    (h : input = none ∨
      ∃ data, input = some data ∧ utf8DecodeStr (decrypt_exdf data) = none) :
    decrypt_exdf_file w input fs out = (false, fs) := by
  rcases h with h | ⟨data, hin, hdec⟩
  · subst h; rfl
  · subst hin; simp [decrypt_exdf_file, hdec]

/-- Witness for C10 on an unreadable input. -/
theorem transform_early_failure_no_write_witness :
    decrypt_exdf_file wAll none ⟨[], []⟩ ⟨[], "a.xml"⟩ = (false, ⟨[], []⟩) :=
  transform_early_failure_no_write wAll ⟨[], []⟩ ⟨[], "a.xml"⟩ none (Or.inl rfl)

/-! ### The traversal lemmas behind the amended C1 and C7 -/

theorem length_filter_partition {α : Type} (g : α → Bool) (l : List α) :
    (l.filter g).length + (l.filter (fun x => !g x)).length = l.length := by
  induction l with
  | nil => rfl
  | cons x xs ih =>
    cases hx : g x <;> simp [List.filter_cons, hx] <;> omega

theorem mkdirParents_files (fs : OutFS) (ds : List String) :
    (mkdirParents fs ds).files = fs.files := rfl

theorem mem_regularFiles_of_mem {p : RPath} {c : List Nat}
    {es : List FSEntry} (h : FSEntry.file p c ∈ es) :
    (p, c) ∈ regularFiles es :=
  List.mem_filterMap.mpr ⟨FSEntry.file p c, h, rfl⟩

theorem mem_of_mem_regularFiles {p : RPath} {c : List Nat}
    {es : List FSEntry} (h : (p, c) ∈ regularFiles es) :
    FSEntry.file p c ∈ es := by
  rcases List.mem_filterMap.mp h with ⟨e, he, hfe⟩
  cases e with
  | file q d =>
    simp only [Option.some.injEq, Prod.mk.injEq] at hfe
    obtain ⟨h1, h2⟩ := hfe
    subst h1; subst h2
    exact he
  | dir q => simp at hfe

/-- Filtering the tree by a name test and collecting its regular files
commutes with collecting and then filtering. -/
theorem regularFiles_filter_name (g : String → Bool) (tree : List FSEntry) :
    regularFiles (tree.filter (fun e => g e.name)) =
      (regularFiles tree).filter (fun pc => g pc.1.name) := by
  induction tree with
  | nil => rfl
  | cons e es ih =>
    cases e with
    | file p c =>
      cases hg : g p.name with
      | false =>
        simpa [regularFiles, List.filter_cons, FSEntry.name, FSEntry.path, hg]
          using ih
      | true =>
        simpa [regularFiles, List.filter_cons, FSEntry.name, FSEntry.path, hg]
          using ih
    | dir p =>
      cases hg : g p.name with
      | false =>
        simpa [regularFiles, List.filter_cons, FSEntry.name, FSEntry.path, hg]
          using ih
      | true =>
        simpa [regularFiles, List.filter_cons, FSEntry.name, FSEntry.path, hg]
          using ih

theorem regularFiles_length_of_all_files (es : List FSEntry)
    (h : ∀ e ∈ es, ∃ p c, e = FSEntry.file p c) :
    (regularFiles es).length = es.length := by
  induction es with
  | nil => rfl
  | cons e es ih =>
    obtain ⟨p, c, rfl⟩ := h e (List.mem_cons_self e es)
    have := ih (fun x hx => h x (List.mem_cons_of_mem _ hx))
    simpa [regularFiles] using this

/-- Phase 1 on a list of readable, decodable, writable file entries with
pairwise distinct output paths all of which are fresh: the store receives
exactly the transformed files and the success counter counts them. -/
theorem phase1_writes (w : World) (es : List FSEntry) :
    ∀ (s f : Nat) (fs : OutFS),
      (∀ p c, FSEntry.file p c ∈ es →
        w.readable p = true ∧ (utf8DecodeStr (decrypt_exdf c)).isSome = true ∧
          w.writable (xmlOutPath p) = true) →
      (∀ p c, FSEntry.file p c ∈ es → ∀ q ∈ fs.files, q.1 ≠ xmlOutPath p) →
      ((regularFiles es).map (fun pc => xmlOutPath pc.1)).Nodup →
      (es.foldl (phase1Step w) (s, f, fs)).2.2.files =
          ((regularFiles es).map
            (fun pc => (xmlOutPath pc.1, transformContent w pc.2))).reverse ++
            fs.files ∧
        (es.foldl (phase1Step w) (s, f, fs)).1 = s + (regularFiles es).length := by
  induction es with
  | nil => intro s f fs _ _ _; simp [regularFiles]
  | cons e es ih =>
    intro s f fs hgood hfresh hnodup
    cases e with
    | dir p =>
      have hstep : phase1Step w (s, f, fs) (FSEntry.dir p) = (s, f + 1, fs) := rfl
      rw [List.foldl_cons, hstep]
      have hres := ih s (f + 1) fs
        (fun p1 c1 h1 => hgood p1 c1 (List.mem_cons_of_mem _ h1))
        (fun p1 c1 h1 => hfresh p1 c1 (List.mem_cons_of_mem _ h1))
        hnodup
      simpa [regularFiles] using hres
    | file p c =>
      obtain ⟨hr, hd, hw⟩ := hgood p c (List.mem_cons_self _ _)
      obtain ⟨str, hstr⟩ := Option.isSome_iff_exists.mp hd
      have hstep : phase1Step w (s, f, fs) (FSEntry.file p c) =
          (s + 1, f,
            writeFile (mkdirParents fs (xmlOutPath p).dirs) (xmlOutPath p)
              (utf8Encode (pretty_print_xml w.fromstring str))) := by
        simp [phase1Step, decrypt_exdf_file, readBytesOf, FSEntry.path, hr,
          hstr, hw]
      have hcontent : transformContent w c =
          utf8Encode (pretty_print_xml w.fromstring str) := by
        simp [transformContent, hstr]
      have hwf : (writeFile (mkdirParents fs (xmlOutPath p).dirs) (xmlOutPath p)
            (utf8Encode (pretty_print_xml w.fromstring str))).files =
          (xmlOutPath p, transformContent w c) :: fs.files := by
        rw [hcontent]
        simp only [writeFile, mkdirParents_files]
        congr 1
        exact List.filter_eq_self.mpr
          (fun q hq => decide_eq_true
            (hfresh p c (List.mem_cons_self _ _) q hq))
      have hmapcons :
          (regularFiles (FSEntry.file p c :: es)).map
              (fun pc => xmlOutPath pc.1) =
            xmlOutPath p ::
              (regularFiles es).map (fun pc => xmlOutPath pc.1) := by
        simp [regularFiles]
      rw [hmapcons] at hnodup
      have hnotmem := (List.nodup_cons.mp hnodup).1
      have hnodup2 := (List.nodup_cons.mp hnodup).2
      have hfresh2 : ∀ p1 c1, FSEntry.file p1 c1 ∈ es →
          ∀ q ∈ (writeFile (mkdirParents fs (xmlOutPath p).dirs) (xmlOutPath p)
            (utf8Encode (pretty_print_xml w.fromstring str))).files,
            q.1 ≠ xmlOutPath p1 := by
        intro p1 c1 h1 q hq
        rw [hwf] at hq
        rcases List.mem_cons.mp hq with hq | hq
        · subst hq
          intro hcontra
          have hceq : xmlOutPath p = xmlOutPath p1 := hcontra
          apply hnotmem
          rw [hceq]
          exact List.mem_map_of_mem _ (mem_regularFiles_of_mem h1)
        · exact hfresh p1 c1 (List.mem_cons_of_mem _ h1) q hq
      obtain ⟨ihf, ihs⟩ := ih (s + 1) f _
        (fun p1 c1 h1 => hgood p1 c1 (List.mem_cons_of_mem _ h1))
        hfresh2 hnodup2
      rw [List.foldl_cons, hstep]
      constructor
      · rw [ihf, hwf]
        simp [regularFiles, List.reverse_cons, List.append_assoc]
      · rw [ihs]
        simp [regularFiles]
        omega

/-- Phase 2 on a tree whose copyable files are readable and writable with
pairwise distinct, fresh destination paths: the fold completes, counts
the copies and appends exactly the copied files to the store. -/
theorem copyFold_writes (w : World) (es : List FSEntry) :
    ∀ (k : Nat) (fs : OutFS),
      (∀ p c, FSEntry.file p c ∈ es → isExdfBySuffix p.name = false →
        w.readable p = true ∧ w.writable p = true) →
      (∀ p c, FSEntry.file p c ∈ es → isExdfBySuffix p.name = false →
        ∀ q ∈ fs.files, q.1 ≠ p) →
      ((passThroughFilesOf es).map (fun pc => pc.1)).Nodup →
      ∃ fs2 : OutFS,
        es.foldl (copyStep w) (some (k, fs)) =
            some (k + (passThroughFilesOf es).length, fs2) ∧
          fs2.files = (passThroughFilesOf es).reverse ++ fs.files := by
  induction es with
  | nil =>
    intro k fs _ _ _
    exact ⟨fs, by simp [passThroughFilesOf, regularFiles], by
      simp [passThroughFilesOf, regularFiles]⟩
  | cons e es ih =>
    intro k fs hok hfresh hnodup
    cases e with
    | dir p =>
      have hstep : copyStep w (some (k, fs)) (FSEntry.dir p) = some (k, fs) := rfl
      rw [List.foldl_cons, hstep]
      have hres := ih k fs
        (fun p1 c1 h1 => hok p1 c1 (List.mem_cons_of_mem _ h1))
        (fun p1 c1 h1 => hfresh p1 c1 (List.mem_cons_of_mem _ h1))
        hnodup
      simpa [passThroughFilesOf, regularFiles] using hres
    | file p c =>
      cases hsfx : isExdfBySuffix p.name with
      | true =>
        have hstep : copyStep w (some (k, fs)) (FSEntry.file p c) =
            some (k, fs) := by
          simp [copyStep, hsfx]
        have hpt : passThroughFilesOf (FSEntry.file p c :: es) =
            passThroughFilesOf es := by
          simp [passThroughFilesOf, regularFiles, List.filter_cons, hsfx]
        rw [List.foldl_cons, hstep, hpt]
        exact ih k fs
          (fun p1 c1 h1 => hok p1 c1 (List.mem_cons_of_mem _ h1))
          (fun p1 c1 h1 => hfresh p1 c1 (List.mem_cons_of_mem _ h1))
          (hpt ▸ hnodup)
      | false =>
        obtain ⟨hr, hw⟩ := hok p c (List.mem_cons_self _ _) hsfx
        have hstep : copyStep w (some (k, fs)) (FSEntry.file p c) =
            some (k + 1, writeFile (mkdirParents fs p.dirs) p c) := by
          simp [copyStep, hsfx, hr, hw]
        have hwfiles : (writeFile (mkdirParents fs p.dirs) p c).files =
            (p, c) :: fs.files := by
          simp only [writeFile, mkdirParents_files]
          congr 1
          exact List.filter_eq_self.mpr
            (fun q hq => decide_eq_true
              (hfresh p c (List.mem_cons_self _ _) hsfx q hq))
        have hpt : passThroughFilesOf (FSEntry.file p c :: es) =
            (p, c) :: passThroughFilesOf es := by
          simp [passThroughFilesOf, regularFiles, List.filter_cons, hsfx]
        have hmapcons : (passThroughFilesOf (FSEntry.file p c :: es)).map
              (fun pc => pc.1) =
            p :: (passThroughFilesOf es).map (fun pc => pc.1) := by
          rw [hpt]; rfl
        rw [hmapcons] at hnodup
        have hnotmem := (List.nodup_cons.mp hnodup).1
        have hnodup2 := (List.nodup_cons.mp hnodup).2
        have hfresh2 : ∀ p1 c1, FSEntry.file p1 c1 ∈ es →
            isExdfBySuffix p1.name = false →
            ∀ q ∈ (writeFile (mkdirParents fs p.dirs) p c).files, q.1 ≠ p1 := by
          intro p1 c1 h1 hs1 q hq
          rw [hwfiles] at hq
          rcases List.mem_cons.mp hq with hq | hq
          · subst hq
            intro hcontra
            have hceq : p = p1 := hcontra
            apply hnotmem
            rw [hceq]
            exact List.mem_map_of_mem _ (List.mem_filter.mpr
              ⟨mem_regularFiles_of_mem h1, by simp [hs1]⟩)
          · exact hfresh p1 c1 (List.mem_cons_of_mem _ h1) hs1 q hq
        obtain ⟨fs2, hfold, hfiles⟩ := ih (k + 1) _
          (fun p1 c1 h1 => hok p1 c1 (List.mem_cons_of_mem _ h1))
          hfresh2 hnodup2
        refine ⟨fs2, ?_, ?_⟩
        · rw [List.foldl_cons, hstep, hpt, List.length_cons,
            show k + ((passThroughFilesOf es).length + 1) =
              k + 1 + (passThroughFilesOf es).length by omega]
          exact hfold
        · rw [hfiles, hwfiles, hpt]
          simp [List.reverse_cons, List.append_assoc]

/-- Phase 2 always completes and counts one copy per copyable file when
the copyable files are readable and writable (no freshness needed for the
counters alone). -/
theorem copyFold_counts (w : World) (es : List FSEntry) :
    ∀ (k : Nat) (fs : OutFS),
      (∀ p c, FSEntry.file p c ∈ es → isExdfBySuffix p.name = false →
        w.readable p = true ∧ w.writable p = true) →
      ∃ fs2 : OutFS,
        es.foldl (copyStep w) (some (k, fs)) =
          some (k + (passThroughFilesOf es).length, fs2) := by
  induction es with
  | nil => intro k fs _; exact ⟨fs, by simp [passThroughFilesOf, regularFiles]⟩
  | cons e es ih =>
    intro k fs hok
    cases e with
    | dir p =>
      have hstep : copyStep w (some (k, fs)) (FSEntry.dir p) = some (k, fs) := rfl
      rw [List.foldl_cons, hstep]
      have hres := ih k fs
        (fun p1 c1 h1 => hok p1 c1 (List.mem_cons_of_mem _ h1))
      simpa [passThroughFilesOf, regularFiles] using hres
    | file p c =>
      cases hsfx : isExdfBySuffix p.name with
      | true =>
        have hstep : copyStep w (some (k, fs)) (FSEntry.file p c) =
            some (k, fs) := by
          simp [copyStep, hsfx]
        have hpt : passThroughFilesOf (FSEntry.file p c :: es) =
            passThroughFilesOf es := by
          simp [passThroughFilesOf, regularFiles, List.filter_cons, hsfx]
        rw [List.foldl_cons, hstep, hpt]
        exact ih k fs (fun p1 c1 h1 => hok p1 c1 (List.mem_cons_of_mem _ h1))
      | false =>
        obtain ⟨hr, hw⟩ := hok p c (List.mem_cons_self _ _) hsfx
        have hstep : copyStep w (some (k, fs)) (FSEntry.file p c) =
            some (k + 1, writeFile (mkdirParents fs p.dirs) p c) := by
          simp [copyStep, hsfx, hr, hw]
        have hpt : passThroughFilesOf (FSEntry.file p c :: es) =
            (p, c) :: passThroughFilesOf es := by
          simp [passThroughFilesOf, regularFiles, List.filter_cons, hsfx]
        obtain ⟨fs2, hfold⟩ := ih (k + 1) (writeFile (mkdirParents fs p.dirs) p c)
          (fun p1 c1 h1 => hok p1 c1 (List.mem_cons_of_mem _ h1))
        refine ⟨fs2, ?_⟩
        rw [List.foldl_cons, hstep, hpt, List.length_cons,
          show k + ((passThroughFilesOf es).length + 1) =
            k + 1 + (passThroughFilesOf es).length by omega]
        exact hfold

/-- C7 amended: when the extension classification is consistent (a
regular file matches the case-sensitive glob exactly when its lowercased
suffix is ".exdf", and no directory name matches the glob) and the
copyable files are readable with writable destinations so the run
completes, the counters partition the visited regular files:
success + failed + copied equals their number. Without the consistency
hypothesis a file with an uppercase extension variant updates no
counter. -/
theorem report_counters_amended (w : World) (tree : List FSEntry)
    (hclass : ∀ p c, FSEntry.file p c ∈ tree →
      rglobExdfMatch p.name = isExdfBySuffix p.name)
    (hdirs : ∀ p, FSEntry.dir p ∈ tree → rglobExdfMatch p.name = false)
    (hcopy : ∀ p c, FSEntry.file p c ∈ tree → isExdfBySuffix p.name = false →
      w.readable p = true ∧ w.writable p = true) :
    ∃ r : RunResult, mainRun w tree = some r ∧
      r.success + r.failed + r.copied = (regularFiles tree).length := by
  obtain ⟨fs2, hfold⟩ := copyFold_counts w tree 0
    (phase1 w (sortByPathKey (tree.filter (fun e => rglobExdfMatch e.name)))
      ⟨[], []⟩).2.2 hcopy
  refine ⟨⟨(phase1 w (sortByPathKey
      (tree.filter (fun e => rglobExdfMatch e.name))) ⟨[], []⟩).1,
    (phase1 w (sortByPathKey
      (tree.filter (fun e => rglobExdfMatch e.name))) ⟨[], []⟩).2.1,
    0 + (passThroughFilesOf tree).length, fs2⟩, ?_, ?_⟩
  · simp only [mainRun]
    rw [hfold]
  · have hcounts := phase1_counts w
      (sortByPathKey (tree.filter (fun e => rglobExdfMatch e.name))) 0 0
      ⟨[], []⟩
    have hcountsp : (phase1 w (sortByPathKey
          (tree.filter (fun e => rglobExdfMatch e.name))) ⟨[], []⟩).1 +
        (phase1 w (sortByPathKey
          (tree.filter (fun e => rglobExdfMatch e.name))) ⟨[], []⟩).2.1 =
          0 + 0 + (sortByPathKey
            (tree.filter (fun e => rglobExdfMatch e.name))).length := hcounts
    have hlensort : (sortByPathKey
          (tree.filter (fun e => rglobExdfMatch e.name))).length =
        (tree.filter (fun e => rglobExdfMatch e.name)).length :=
      List.length_insertionSort _ _
    have hallfiles : ∀ e ∈ tree.filter (fun e => rglobExdfMatch e.name),
        ∃ p c, e = FSEntry.file p c := by
      intro e he
      have hm := List.mem_filter.mp he
      cases e with
      | file p c => exact ⟨p, c, rfl⟩
      | dir p =>
        exfalso
        have hm2 : rglobExdfMatch p.name = true := hm.2
        rw [hdirs p hm.1] at hm2
        exact Bool.false_ne_true hm2
    have hreglen := regularFiles_length_of_all_files _ hallfiles
    have hregG : (regularFiles
          (tree.filter (fun e => rglobExdfMatch e.name))).length =
        ((regularFiles tree).filter
          (fun pc => rglobExdfMatch pc.1.name)).length :=
      congrArg List.length (regularFiles_filter_name rglobExdfMatch tree)
    have hpasseq : (passThroughFilesOf tree).length =
        ((regularFiles tree).filter
          (fun pc => !rglobExdfMatch pc.1.name)).length := by
      apply congrArg List.length
      apply List.filter_congr
      intro pc hpc
      cases pc with
      | mk p0 c0 =>
        have := hclass p0 c0 (mem_of_mem_regularFiles hpc)
        simp [this]
    have hpartition := length_filter_partition
      (fun pc => rglobExdfMatch pc.1.name) (regularFiles tree)
    simp only []
    omega

/-- C1 amended: when the extension classification is consistent (glob
match and lowercased-suffix match agree on every regular file), every
glob-matched file is readable with decodable decrypted content and a
writable output, every pass-through file is readable with a writable
destination, and the output paths (rewritten for transformed files,
unchanged for pass-through files) are pairwise distinct, then the run
completes and the output tree holds exactly N files for N input files:
each of the M glob-matched files transformed at its extension-rewritten
relative path and each of the N - M other files copied byte-identically
at its unmodified relative path. Without these hypotheses the claim
fails: a file with an uppercase extension variant is dropped
entirely. -/
theorem mirror_completeness_amended (w : World) (tree : List FSEntry)
    (hclass : ∀ p c, FSEntry.file p c ∈ tree →
      rglobExdfMatch p.name = isExdfBySuffix p.name)
    (hgood : ∀ p c, FSEntry.file p c ∈ tree → rglobExdfMatch p.name = true →
      w.readable p = true ∧ (utf8DecodeStr (decrypt_exdf c)).isSome = true ∧
        w.writable (xmlOutPath p) = true)
    (hcopy : ∀ p c, FSEntry.file p c ∈ tree → isExdfBySuffix p.name = false →
      w.readable p = true ∧ w.writable p = true)
    (hnodup : ((exdfFilesOf tree).map (fun pc => xmlOutPath pc.1) ++
      (passThroughFilesOf tree).map (fun pc => pc.1)).Nodup) :
    ∃ r : RunResult, mainRun w tree = some r ∧
      r.fs.files.length = (regularFiles tree).length ∧
      r.success = (exdfFilesOf tree).length ∧
      r.copied = (passThroughFilesOf tree).length ∧
      (∀ p c, (p, c) ∈ exdfFilesOf tree →
        (xmlOutPath p, transformContent w c) ∈ r.fs.files) ∧
      (∀ p c, (p, c) ∈ passThroughFilesOf tree → (p, c) ∈ r.fs.files) := by
  have hperm : List.Perm
      (sortByPathKey (tree.filter (fun e => rglobExdfMatch e.name)))
      (tree.filter (fun e => rglobExdfMatch e.name)) :=
    List.perm_insertionSort _ _
  have hregperm : List.Perm
      (regularFiles (sortByPathKey
        (tree.filter (fun e => rglobExdfMatch e.name))))
      (exdfFilesOf tree) := by
    have h1 : List.Perm
        (regularFiles (sortByPathKey
          (tree.filter (fun e => rglobExdfMatch e.name))))
        (regularFiles (tree.filter (fun e => rglobExdfMatch e.name))) :=
      hperm.filterMap _
    have h2 : regularFiles (tree.filter (fun e => rglobExdfMatch e.name)) =
        exdfFilesOf tree := regularFiles_filter_name rglobExdfMatch tree
    rw [h2] at h1
    exact h1
  have hgoodS : ∀ p c, FSEntry.file p c ∈ sortByPathKey
      (tree.filter (fun e => rglobExdfMatch e.name)) →
      w.readable p = true ∧ (utf8DecodeStr (decrypt_exdf c)).isSome = true ∧
        w.writable (xmlOutPath p) = true := by
    intro p c h
    have hL : FSEntry.file p c ∈ tree.filter (fun e => rglobExdfMatch e.name) :=
      hperm.mem_iff.mp h
    have hm := List.mem_filter.mp hL
    exact hgood p c hm.1 hm.2
  have hndS : ((regularFiles (sortByPathKey
        (tree.filter (fun e => rglobExdfMatch e.name)))).map
        (fun pc => xmlOutPath pc.1)).Nodup := by
    have h2 : List.Perm
        ((regularFiles (sortByPathKey
          (tree.filter (fun e => rglobExdfMatch e.name)))).map
          (fun pc => xmlOutPath pc.1))
        ((exdfFilesOf tree).map (fun pc => xmlOutPath pc.1)) := hregperm.map _
    exact h2.nodup_iff.mpr hnodup.of_append_left
  obtain ⟨hfiles1, hsucc1⟩ := phase1_writes w
    (sortByPathKey (tree.filter (fun e => rglobExdfMatch e.name))) 0 0
    ⟨[], []⟩ hgoodS
    (fun p c hpc q hq => absurd hq (List.not_mem_nil q)) hndS
  have hfiles1p : (phase1 w (sortByPathKey
        (tree.filter (fun e => rglobExdfMatch e.name))) ⟨[], []⟩).2.2.files =
      ((regularFiles (sortByPathKey
        (tree.filter (fun e => rglobExdfMatch e.name)))).map
        (fun pc => (xmlOutPath pc.1, transformContent w pc.2))).reverse ++
        [] := hfiles1
  have hsucc1p : (phase1 w (sortByPathKey
        (tree.filter (fun e => rglobExdfMatch e.name))) ⟨[], []⟩).1 =
      0 + (regularFiles (sortByPathKey
        (tree.filter (fun e => rglobExdfMatch e.name)))).length := hsucc1
  have hfreshC : ∀ p c, FSEntry.file p c ∈ tree →
      isExdfBySuffix p.name = false →
      ∀ q ∈ (phase1 w (sortByPathKey
        (tree.filter (fun e => rglobExdfMatch e.name))) ⟨[], []⟩).2.2.files,
        q.1 ≠ p := by
    intro p c hpc hsfx q hq
    rw [hfiles1p, List.append_nil] at hq
    have hq2 := List.mem_reverse.mp hq
    rcases List.mem_map.mp hq2 with ⟨pc0, hpc0, hqeq⟩
    have hq1 : q.1 = xmlOutPath pc0.1 := by rw [← hqeq]
    rw [hq1]
    intro hcontra
    have hA : xmlOutPath pc0.1 ∈
        (exdfFilesOf tree).map (fun pc => xmlOutPath pc.1) :=
      List.mem_map_of_mem _ ((hregperm.mem_iff).mp hpc0)
    have hB : p ∈ (passThroughFilesOf tree).map (fun pc => pc.1) :=
      List.mem_map_of_mem _ (List.mem_filter.mpr
        ⟨mem_regularFiles_of_mem hpc, by simp [hsfx]⟩)
    rw [← hcontra] at hB
    exact List.disjoint_of_nodup_append hnodup hA hB
  obtain ⟨fs2, hfold, hfiles2⟩ := copyFold_writes w tree 0
    (phase1 w (sortByPathKey
      (tree.filter (fun e => rglobExdfMatch e.name))) ⟨[], []⟩).2.2
    hcopy hfreshC hnodup.of_append_right
  refine ⟨⟨(phase1 w (sortByPathKey
      (tree.filter (fun e => rglobExdfMatch e.name))) ⟨[], []⟩).1,
    (phase1 w (sortByPathKey
      (tree.filter (fun e => rglobExdfMatch e.name))) ⟨[], []⟩).2.1,
    0 + (passThroughFilesOf tree).length, fs2⟩, ?_, ?_, ?_, ?_, ?_, ?_⟩
  · simp only [mainRun]
    rw [hfold]
  · have hlen2 : fs2.files.length = (passThroughFilesOf tree).length +
        (regularFiles (sortByPathKey
          (tree.filter (fun e => rglobExdfMatch e.name)))).length := by
      rw [hfiles2, hfiles1p, List.append_nil]
      simp [List.length_append, List.length_reverse, List.length_map]
    have hexdlen : (regularFiles (sortByPathKey
          (tree.filter (fun e => rglobExdfMatch e.name)))).length =
        (exdfFilesOf tree).length := hregperm.length_eq
    have hexdfilter : (exdfFilesOf tree).length =
        ((regularFiles tree).filter
          (fun pc => rglobExdfMatch pc.1.name)).length := rfl
    have hpasseq : (passThroughFilesOf tree).length =
        ((regularFiles tree).filter
          (fun pc => !rglobExdfMatch pc.1.name)).length := by
      apply congrArg List.length
      apply List.filter_congr
      intro pc hpc
      cases pc with
      | mk p0 c0 =>
        have := hclass p0 c0 (mem_of_mem_regularFiles hpc)
        simp [this]
    have hpartition := length_filter_partition
      (fun pc => rglobExdfMatch pc.1.name) (regularFiles tree)
    simp only []
    omega
  · have hexdlen : (regularFiles (sortByPathKey
          (tree.filter (fun e => rglobExdfMatch e.name)))).length =
        (exdfFilesOf tree).length := hregperm.length_eq
    simp only []
    omega
  · simp
  · intro p c hpc
    simp only []
    rw [hfiles2, hfiles1p, List.append_nil]
    apply List.mem_append.mpr
    right
    apply List.mem_reverse.mpr
    exact List.mem_map_of_mem _ ((hregperm.mem_iff).mpr hpc)
  · intro p c hpc
    simp only []
    rw [hfiles2]
    exact List.mem_append.mpr (Or.inl (List.mem_reverse.mpr hpc))

/-- Witness for the amended C7 on a concrete run with one failing
transform and one copied file: 1 + 1 + 0 versus 2 regular files. -/
theorem report_counters_amended_witness :
    ∃ r : RunResult, mainRun wAll treeMixedFail = some r ∧
      r.success + r.failed + r.copied = (regularFiles treeMixedFail).length :=
  report_counters_amended wAll treeMixedFail
    (by
      intro p c h
      simp only [treeMixedFail, List.mem_cons, List.not_mem_nil, or_false,
        FSEntry.file.injEq] at h
      rcases h with ⟨hp, hc⟩ | ⟨hp, hc⟩
      · subst hp; subst hc; decide
      · subst hp; subst hc; decide)
    (by
      intro p h
      simp [treeMixedFail] at h)
    (by
      intro p c h
      simp only [treeMixedFail, List.mem_cons, List.not_mem_nil, or_false,
        FSEntry.file.injEq] at h
      rcases h with ⟨hp, hc⟩ | ⟨hp, hc⟩
      · subst hp; subst hc; decide
      · subst hp; subst hc; decide)

/-- Witness for the amended C1 on a concrete two-file tree: both files
appear in the output, the encrypted one transformed, the other copied. -/
theorem mirror_completeness_amended_witness :
    ∃ r : RunResult, mainRun wAll treeMixedOk = some r ∧
      r.fs.files.length = (regularFiles treeMixedOk).length ∧
      r.success = (exdfFilesOf treeMixedOk).length ∧
      r.copied = (passThroughFilesOf treeMixedOk).length ∧
      (∀ p c, (p, c) ∈ exdfFilesOf treeMixedOk →
        (xmlOutPath p, transformContent wAll c) ∈ r.fs.files) ∧
      (∀ p c, (p, c) ∈ passThroughFilesOf treeMixedOk →
        (p, c) ∈ r.fs.files) :=
  mirror_completeness_amended wAll treeMixedOk
    (by
      intro p c h
      simp only [treeMixedOk, List.mem_cons, List.not_mem_nil, or_false,
        FSEntry.file.injEq] at h
      rcases h with ⟨hp, hc⟩ | ⟨hp, hc⟩
      · subst hp; subst hc; decide
      · subst hp; subst hc; decide)
    (by
      intro p c h
      simp only [treeMixedOk, List.mem_cons, List.not_mem_nil, or_false,
        FSEntry.file.injEq] at h
      rcases h with ⟨hp, hc⟩ | ⟨hp, hc⟩
      · subst hp; subst hc; decide
      · subst hp; subst hc; decide)
    (by
      intro p c h
      simp only [treeMixedOk, List.mem_cons, List.not_mem_nil, or_false,
        FSEntry.file.injEq] at h
      rcases h with ⟨hp, hc⟩ | ⟨hp, hc⟩
      · subst hp; subst hc; decide
      · subst hp; subst hc; decide)
    (by decide)

end DecryptExdf
